import Mathlib

set_option linter.unusedVariables false

/-!
Verification development for the `range_set` crate
(`src/etc/range_set/src/lib.rs`) and the bootloader memory-manager front end
(`src/bootloader/src/mm.rs`).

Modelling conventions:
* `u64` values are modelled as `Nat`; saturating / wrapping operations of the
  source carry an explicit saturation at `U64MAX` or reduction `% U64MOD`.
  Arithmetic that is guarded in the source (`checked_add`, or bounds checked
  before the operation) is plain `Nat` arithmetic plus the source's guard.
* A `RangeSet` is modelled by the list of its live entries in storage order
  (the source keeps a 256-slot array plus `in_use`; slots at index
  `>= in_use` are never observable, and `delete`'s swap loop is exactly
  removal from the live prefix with the order of the others kept).
* A Rust panic (failed `assert!`, arithmetic `unwrap`, capacity overflow) is
  modelled as `none` / a dedicated `panic` constructor.
* The fuel of the merge / subtraction fixpoint loops only bounds the number
  of restarts; each restart consumes one entry overlapping (or touching) the
  argument, so `length + 1` restarts can never be reached.
-/

/-- Largest `u64` value. -/
def U64MAX : Nat := 2 ^ 64 - 1

/-- Modulus of wrapping `u64` arithmetic. -/
def U64MOD : Nat := 2 ^ 64

/-- `u64::saturating_add 1`. -/
def satAdd1 (x : Nat) : Nat := min (x + 1) U64MAX

/-- `u64::saturating_sub 1` (`Nat` subtraction already saturates at 0). -/
def satSub1 (x : Nat) : Nat := x - 1

/-- Capacity of the entry array (`ranges: [Range; 256]`). -/
def CAPACITY : Nat := 256

/-- An inclusive range, source struct `Range { start: u64, end: u64 }`.
The source field `end` is a Lean keyword and is called `stop` here. -/
structure Range where
  start : Nat
  stop  : Nat
deriving DecidableEq, Repr

/-- Body of `Range::contains`:
`self.start <= other.start && self.end >= other.end`.
(The `assert!(other.start <= other.end)` of the source is modelled at the
call sites.) -/
def Range.containsP (self other : Range) : Prop :=
  self.start ≤ other.start ∧ self.stop ≥ other.stop

instance (a b : Range) : Decidable (a.containsP b) := by
  unfold Range.containsP; exact inferInstance

/-- Overlap test of `Range::overlaps`:
`self.start <= other.end && other.start <= self.end`. -/
def Range.overlapsP (self other : Range) : Prop :=
  self.start ≤ other.stop ∧ other.start ≤ self.stop

instance (a b : Range) : Decidable (a.overlapsP b) := by
  unfold Range.overlapsP; exact inferInstance

/-- The overlap returned by `Range::overlaps` when it exists:
`max` of the starts, `min` of the ends. -/
def Range.inter (self other : Range) : Range :=
  ⟨max self.start other.start, min self.stop other.stop⟩

/-- A set of non-overlapping inclusive ranges, modelled by its live entries
(`ranges[0 .. in_use]`) in storage order. -/
structure RangeSet where
  ranges : List Range
deriving DecidableEq, Repr

/-- `RangeSet::new`: the empty set. -/
def RangeSet.new : RangeSet := ⟨[]⟩

/-- `RangeSet::entries`: the live entries, in storage order. -/
def RangeSet.entries (s : RangeSet) : List Range := s.ranges

/-- Result of one scan of `insert`'s `'merges` loop over the entries. -/
inductive InsScan where
  | panic : InsScan
  | done (l : List Range) : InsScan
  | merge (l : List Range) (r : Range) : InsScan
deriving DecidableEq

/-- One pass of the `for idx in 0..in_use` loop inside `RangeSet::insert`.
`pre` holds the entries already scanned (not touching `r`), in order.
For each entry the source builds `first = Range::new(entry.start,
entry.end.saturating_add(1))` and `second = Range::new(range.start,
range.end.saturating_add(1))` (whose asserts are the two panic guards) and
tests them for overlap; on the first hit it deletes the entry and merges it
into `r`, restarting the outer loop. -/
def insertScan (r : Range) (pre : List Range) : List Range → InsScan
  | [] => .done pre
  | e :: rest =>
    if e.start ≤ satAdd1 e.stop then
      if r.start ≤ satAdd1 r.stop then
        if Range.overlapsP ⟨e.start, satAdd1 e.stop⟩ ⟨r.start, satAdd1 r.stop⟩ then
          .merge (pre ++ rest) ⟨min e.start r.start, max e.stop r.stop⟩
        else insertScan r (pre ++ [e]) rest
      else .panic
    else .panic

/-- The `'merges: loop` of `RangeSet::insert`.  Fuel bounds the number of
restarts; each restart deletes one entry, so `length + 1` suffices. -/
def insertLoop : Nat → Range → List Range → Option (List Range × Range)
  | 0, _, _ => none
  | fuel + 1, r, l =>
    match insertScan r [] l with
    | .panic => none
    | .done l' => some (l', r)
    | .merge l' r' => insertLoop fuel r' l'

/-- `RangeSet::insert`.  `none` models a panic (invalid range, or capacity
exceeded when appending the coalesced range). -/
def RangeSet.insert (s : RangeSet) (range : Range) : Option RangeSet :=
  if range.start ≤ range.stop then
    match insertLoop (s.ranges.length + 1) range s.ranges with
    | none => none
    | some (l, r) =>
      if l.length < CAPACITY then some ⟨l ++ [r]⟩ else none
  else none

/-- Result of one scan of `remove`'s `'subtractions` loop. -/
inductive RemScan where
  | panic : RemScan
  | done (l : List Range) : RemScan
  | restart (l : List Range) : RemScan
deriving DecidableEq

/-- One pass of the `for idx in 0..in_use` loop inside `RangeSet::remove`.
Entries not overlapping `r` are skipped; an entry contained in `r` is
deleted (restart); an overlap at one edge trims the entry in place and the
scan continues; a strictly interior `r` splits the entry (capacity
permitting) and restarts.  The panic guards are the `assert!` inside
`range.contains(&entry)` (entry validity) and the capacity assert of the
split. -/
def removeScan (r : Range) (pre : List Range) : List Range → RemScan
  | [] => .done pre
  | e :: rest =>
    if Range.overlapsP e r then
      if e.start ≤ e.stop then
        if Range.containsP r e then
          .restart (pre ++ rest)
        else if r.start ≤ e.start then
          removeScan r (pre ++ [⟨satAdd1 r.stop, e.stop⟩]) rest
        else if r.stop ≥ e.stop then
          removeScan r (pre ++ [⟨e.start, satSub1 r.start⟩]) rest
        else if pre.length + (rest.length + 1) < CAPACITY then
          .restart (pre ++ ⟨satAdd1 r.stop, e.stop⟩ :: rest ++ [⟨e.start, satSub1 r.start⟩])
        else .panic
      else .panic
    else removeScan r (pre ++ [e]) rest

/-- The `'subtractions: loop` of `RangeSet::remove`.  Each restart removes
one entry overlapping `r` (a deletion, or a split into two non-overlapping
parts), so `length + 1` units of fuel can never run out. -/
def removeLoop : Nat → Range → List Range → Option (List Range)
  | 0, _, _ => none
  | fuel + 1, r, l =>
    match removeScan r [] l with
    | .panic => none
    | .done l' => some l'
    | .restart l' => removeLoop fuel r l'

/-- `RangeSet::remove`.  `none` models a panic. -/
def RangeSet.remove (s : RangeSet) (range : Range) : Option RangeSet :=
  if range.start ≤ range.stop then
    (removeLoop (s.ranges.length + 1) range s.ranges).map RangeSet.mk
  else none

/-- `u64::count_ones`, by structural recursion over the 64 bits. -/
def popCountF : Nat → Nat → Nat
  | 0, _ => 0
  | fuel + 1, n => if n = 0 then 0 else n % 2 + popCountF fuel (n / 2)

/-- `align.count_ones()` for a `u64` value. -/
def count_ones (n : Nat) : Nat := popCountF 64 n

/-- Outcome of the hinted inner loop (`for &region in regions.entries()`)
of `RangeSet::allocate` for one free entry. -/
inductive HintOut where
  | panic : HintOut
  | skipEntry : HintOut
  | breakAll (st en ptr : Nat) : HintOut
  | noMatch : HintOut
deriving DecidableEq

/-- The alignment padding of line 233 of the source:
`(align - (entry.start & align_mask)) & align_mask`. -/
def paddingOf (align : Nat) (e : Range) : Nat :=
  (align - (e.start &&& (align - 1))) &&& (align - 1)

/-- The inclusive end of a fallback allocation in entry `e` (line 237):
`start + (size - 1) + padding`, with the two `checked_add` guards modelled
at the call site. -/
def allocEnd (size align : Nat) (e : Range) : Nat :=
  e.start + (size - 1) + paddingOf align e

/-- `align_overlap` of lines 257-259:
`(overlap.start.wrapping_add(align_mask)) & !align_mask`; the `u64`
complement of `align_mask` is `U64MAX - align_mask`. -/
def alignOvOf (align : Nat) (ov : Range) : Nat :=
  ((ov.start + (align - 1)) % U64MOD) &&& (U64MAX - (align - 1))

/-- The hinted inner loop of `RangeSet::allocate` for one entry `e`
(`for &region in regions.entries()`).  `entry.overlaps(&region)` asserts
`region.start <= region.end` (panic guard).  An addressability failure does
`continue 'search` (skip this entry), a success does `break 'search`. -/
def hintScan (usizeMax size align : Nat) (e : Range) : List Range → HintOut
  | [] => .noMatch
  | region :: rest =>
    if region.start ≤ region.stop then
      if Range.overlapsP e region then
        if alignOvOf align (Range.inter e region) ≥ (Range.inter e region).start ∧
            alignOvOf align (Range.inter e region) ≤ (Range.inter e region).stop ∧
            (Range.inter e region).stop - alignOvOf align (Range.inter e region) ≥
              size - 1 then
          if alignOvOf align (Range.inter e region) > usizeMax ∨
              alignOvOf align (Range.inter e region) + (size - 1) > usizeMax then
            .skipEntry
          else
            .breakAll (alignOvOf align (Range.inter e region))
              (alignOvOf align (Range.inter e region) + (size - 1))
              (alignOvOf align (Range.inter e region))
        else hintScan usizeMax size align e rest
      else hintScan usizeMax size align e rest
    else .panic

/-- Outcome of the `'search` loop of `RangeSet::allocate`. -/
inductive ScanOut where
  | panic : ScanOut
  | earlyRet : ScanOut
  | finished (best : Option (Nat × Nat × Nat)) : ScanOut
deriving DecidableEq

/-- The `'search: for entry in self.entries()` loop of `RangeSet::allocate`.
The accumulator `best` is the `allocation` variable: a tuple
`(start, end, ptr)`.  `earlyRet` models the `?` on the two `checked_add`
calls of line 237, which returns `None` from the whole function at once.
The best-fit update replaces `best` exactly when `prev_size > end - start`. -/
def allocGo (usizeMax size align : Nat) (regions : Option RangeSet) :
    List Range → Option (Nat × Nat × Nat) → ScanOut
  | [], best => .finished best
  | e :: rest, best =>
    if e.start + (size - 1) > U64MAX then .earlyRet
    else if allocEnd size align e > U64MAX then .earlyRet
    else
      if e.start > usizeMax ∨ allocEnd size align e > usizeMax then
        allocGo usizeMax size align regions rest best
      else if allocEnd size align e > e.stop then
        allocGo usizeMax size align regions rest best
      else
        match (match regions with
          | none => HintOut.noMatch
          | some rs => hintScan usizeMax size align e rs.ranges) with
        | .panic => .panic
        | .breakAll a b p => .finished (some (a, b, p))
        | .skipEntry => allocGo usizeMax size align regions rest best
        | .noMatch =>
          allocGo usizeMax size align regions rest
            (match best with
             | none => some (e.start, allocEnd size align e, e.start + paddingOf align e)
             | some (ps, pe, pp) =>
               if pe - ps > allocEnd size align e - e.start then
                 some (e.start, allocEnd size align e, e.start + paddingOf align e)
               else some (ps, pe, pp))

/-- Result of `RangeSet::allocate`: a panic, a `None` return (the set is
left untouched), or `Some ptr` together with the mutated set. -/
inductive AllocResult where
  | panic : AllocResult
  | fail (s : RangeSet) : AllocResult
  | ok (ptr : Nat) (s : RangeSet) : AllocResult
deriving DecidableEq

/-- `RangeSet::allocate(size, align, regions)`.  `usizeMax` is
`core::usize::MAX as u64` of the compilation target (the crate is used from
both the 32-bit bootloader and the 64-bit kernel). -/
def RangeSet.allocate (usizeMax : Nat) (s : RangeSet) (size align : Nat)
    (regions : Option RangeSet) : AllocResult :=
  if size = 0 then .fail s
  else if count_ones align ≠ 1 then .fail s
  else
    match allocGo usizeMax size align regions s.ranges none with
    | .panic => .panic
    | .earlyRet => .fail s
    | .finished none => .fail s
    | .finished (some (st, en, ptr)) =>
      match s.remove ⟨st, en⟩ with
      | none => .panic
      | some s' => .ok ptr s'

/-- `usize::MAX` of the 32-bit bootloader target. -/
def USIZE32MAX : Nat := 2 ^ 32 - 1

/-- Result of the global allocator's `alloc`: a panic, or a returned
pointer together with the (possibly mutated) shared `Option<RangeSet>`. -/
inductive GAllocOut where
  | panic : GAllocOut
  | res (ptr : Nat) (mem : Option RangeSet) : GAllocOut
deriving DecidableEq

/-- `GlobalAllocator::alloc` of `src/bootloader/src/mm.rs`:
`physical_memory.as_mut().and_then(|mem| mem.allocate(size, align, None))
.unwrap_or(0)`. -/
def gallocAlloc (mem : Option RangeSet) (size align : Nat) : GAllocOut :=
  match mem with
  | none => .res 0 none
  | some m =>
    match RangeSet.allocate USIZE32MAX m size align none with
    | .panic => .panic
    | .fail m' => .res 0 (some m')
    | .ok p m' => .res p (some m')

/-- The `struct AddressRangeDescriptor { base: u64, size: u64, typ: u8 }`
returned by E820. -/
structure AddressRangeDescriptor where
  base : Nat
  size : Nat
  typ  : Nat
deriving DecidableEq

/-- The body of `init`'s descriptor handling (`src/bootloader/src/mm.rs`,
lines 91-105): in the first pass (`add`) a type-1 descriptor of nonzero
size is inserted, in the second pass a non-type-1 descriptor of nonzero
size is removed; `base.checked_add(size - 1).unwrap()` panics on `u64`
overflow. -/
def processE820 (add : Bool) (freeMemory : RangeSet) (d : AddressRangeDescriptor) :
    Option RangeSet :=
  if add = true ∧ d.typ = 1 ∧ d.size > 0 then
    if d.base + (d.size - 1) ≤ U64MAX then
      freeMemory.insert ⟨d.base, d.base + (d.size - 1)⟩
    else none
  else if add = false ∧ d.typ ≠ 1 ∧ d.size > 0 then
    if d.base + (d.size - 1) ≤ U64MAX then
      freeMemory.remove ⟨d.base, d.base + (d.size - 1)⟩
    else none
  else some freeMemory

/-! ### Semantic vocabulary -/

/-- `a` is one of the addresses of `r`. -/
def Range.memA (r : Range) (a : Nat) : Prop := r.start ≤ a ∧ a ≤ r.stop

instance (r : Range) (a : Nat) : Decidable (r.memA a) := by
  unfold Range.memA; exact inferInstance

/-- Some entry of `l` covers the address `a`. -/
def coversL (l : List Range) (a : Nat) : Prop := ∃ e ∈ l, e.memA a

instance (l : List Range) (a : Nat) : Decidable (coversL l a) := by
  unfold coversL; exact inferInstance

/-- Some live entry of `s` covers the address `a`. -/
def RangeSet.coversS (s : RangeSet) (a : Nat) : Prop := coversL s.ranges a

instance (s : RangeSet) (a : Nat) : Decidable (s.coversS a) := by
  unfold RangeSet.coversS; exact inferInstance

/-- A well-formed entry: a valid (`start <= end`) `u64` range. -/
def Range.wfR (r : Range) : Prop := r.start ≤ r.stop ∧ r.stop ≤ U64MAX

instance (r : Range) : Decidable r.wfR := by
  unfold Range.wfR; exact inferInstance

/-- All entries are well-formed. -/
def wfL (l : List Range) : Prop := ∀ e ∈ l, e.wfR

instance (l : List Range) : Decidable (wfL l) := by
  unfold wfL; exact inferInstance

/-- Two entries neither overlap nor touch: there is a nonempty gap
between them. -/
def sepRange (a b : Range) : Prop := a.stop + 1 < b.start ∨ b.stop + 1 < a.start

instance (a b : Range) : Decidable (sepRange a b) := by
  unfold sepRange; exact inferInstance

/-- The `RangeSet` invariant: pairwise separated entries. -/
def InvL (l : List Range) : Prop := l.Pairwise sepRange

instance (l : List Range) : Decidable (InvL l) := by
  unfold InvL; exact List.instDecidablePairwise l

/-! ### Basic lemmas -/

theorem coversL_append (l₁ l₂ : List Range) (a : Nat) :
    coversL (l₁ ++ l₂) a ↔ coversL l₁ a ∨ coversL l₂ a := by
  simp [coversL, List.mem_append, or_and_right, exists_or]

theorem coversL_cons (e : Range) (l : List Range) (a : Nat) :
    coversL (e :: l) a ↔ e.memA a ∨ coversL l a := by
  simp [coversL, List.mem_cons, or_and_right, exists_or]

theorem coversL_nil (a : Nat) : ¬ coversL [] a := by simp [coversL]

theorem wfL_append (l₁ l₂ : List Range) : wfL (l₁ ++ l₂) ↔ wfL l₁ ∧ wfL l₂ := by
  simp [wfL, List.mem_append, or_imp, forall_and]

theorem wfL_cons (e : Range) (l : List Range) : wfL (e :: l) ↔ e.wfR ∧ wfL l := by
  simp [wfL, List.mem_cons, or_imp, forall_and]

theorem sepRange_symmetric : Symmetric sepRange := by
  intro a b h; exact h.symm

theorem sepRange_shrink_left {e e' b : Range} (h1 : e.start ≤ e'.start)
    (h2 : e'.stop ≤ e.stop) (h : sepRange e b) : sepRange e' b := by
  unfold sepRange at h ⊢; omega

theorem sepRange_shrink_right {e b b' : Range} (h1 : b.start ≤ b'.start)
    (h2 : b'.stop ≤ b.stop) (h : sepRange e b) : sepRange e b' := by
  unfold sepRange at h ⊢; omega

/-- Replacing one entry by a sub-entry keeps the invariant. -/
theorem InvL_replace {pre rest : List Range} {e e' : Range}
    (h1 : e.start ≤ e'.start) (h2 : e'.stop ≤ e.stop)
    (h : InvL (pre ++ e :: rest)) : InvL (pre ++ e' :: rest) := by
  unfold InvL at h ⊢
  rw [List.pairwise_append] at h ⊢
  obtain ⟨hp, hc, hx⟩ := h
  rw [List.pairwise_cons] at hc ⊢
  refine ⟨hp, ⟨?_, hc.2⟩, ?_⟩
  · intro b hb
    exact sepRange_shrink_left h1 h2 (hc.1 b hb)
  · intro a ha b hb
    rcases List.mem_cons.1 hb with rfl | hb
    · exact sepRange_shrink_right h1 h2 (hx a ha e (List.mem_cons_self _ _))
    · exact hx a ha b (List.mem_cons_of_mem _ hb)

theorem InvL_sublist {l₁ l₂ : List Range} (h : l₁.Sublist l₂) (hi : InvL l₂) : InvL l₁ :=
  List.Pairwise.sublist h hi

theorem wfL_sublist {l₁ l₂ : List Range} (h : l₁.Sublist l₂) (hw : wfL l₂) : wfL l₁ :=
  fun e he => hw e (h.mem he)

/-! ### count_ones -/

theorem popCountF_zero (fuel : Nat) : popCountF fuel 0 = 0 := by
  cases fuel <;> rfl

theorem popCountF_eq_zero {fuel n : Nat} (hn : n < 2 ^ fuel)
    (h : popCountF fuel n = 0) : n = 0 := by
  induction fuel generalizing n with
  | zero => simpa using Nat.lt_one_iff.1 hn
  | succ f ih =>
    by_cases h0 : n = 0
    · exact h0
    · simp [popCountF, h0] at h
      have hd : n / 2 < 2 ^ f := by
        rw [pow_succ] at hn; omega
      have := ih hd h.2
      omega

theorem popCountF_eq_one {fuel n : Nat} (hn : n < 2 ^ fuel)
    (h : popCountF fuel n = 1) : ∃ k, n = 2 ^ k := by
  induction fuel generalizing n with
  | zero =>
    have hn0 : n = 0 := by omega
    subst hn0
    exact absurd h (by simp [popCountF])
  | succ f ih =>
    by_cases h0 : n = 0
    · simp [h0, popCountF_zero] at h
    · simp only [popCountF, h0, if_false] at h
      have hd : n / 2 < 2 ^ f := by
        rw [pow_succ] at hn; omega
      rcases Nat.mod_two_eq_zero_or_one n with he | ho
      · rw [he] at h
        obtain ⟨k, hk⟩ := ih hd (by omega)
        exact ⟨k + 1, by rw [pow_succ]; omega⟩
      · rw [ho] at h
        have := popCountF_eq_zero hd (by omega)
        exact ⟨0, by omega⟩

theorem count_ones_pow2 {n : Nat} (hn : n ≤ U64MAX) (h : count_ones n = 1) :
    ∃ k, k < 64 ∧ n = 2 ^ k := by
  have hlt : n < 2 ^ 64 := by unfold U64MAX at hn; omega
  obtain ⟨k, hk⟩ := popCountF_eq_one hlt h
  refine ⟨k, ?_, hk⟩
  by_contra hle
  have : 2 ^ 64 ≤ 2 ^ k := Nat.pow_le_pow_right (by norm_num) (by omega)
  omega

/-! ### Bit-mask arithmetic -/

theorem land_mask_mod (x k : Nat) : x &&& (2 ^ k - 1) = x % 2 ^ k := by
  apply Nat.eq_of_testBit_eq
  intro i
  simp [Nat.testBit_and, Nat.testBit_mod_two_pow, Nat.testBit_two_pow_sub_one,
    Bool.and_comm]

theorem land_high_dvd (x k : Nat) (h : k ≤ 64) : 2 ^ k ∣ x &&& (2 ^ 64 - 2 ^ k) := by
  have hm : (2 ^ 64 - 2 ^ k) &&& (2 ^ k - 1) = 0 := by
    rw [land_mask_mod]
    obtain ⟨c, hc⟩ := Nat.dvd_sub' (Nat.pow_dvd_pow 2 h) (dvd_refl (2 ^ k))
    rw [hc, Nat.mul_mod_right]
  have h2 : (x &&& (2 ^ 64 - 2 ^ k)) % 2 ^ k = 0 := by
    rw [← land_mask_mod, Nat.land_assoc, hm, Nat.and_zero]
  exact Nat.dvd_of_mod_eq_zero h2

/-- The fallback-path pointer `entry.start + padding` is aligned. -/
theorem padding_aligns (st k : Nat) :
    (st + ((2 ^ k - (st &&& (2 ^ k - 1))) &&& (2 ^ k - 1))) % 2 ^ k = 0 := by
  rw [land_mask_mod, land_mask_mod]
  have hp : 0 < 2 ^ k := Nat.pos_pow_of_pos k (by norm_num)
  have hr : st % 2 ^ k < 2 ^ k := Nat.mod_lt st hp
  have hq : 2 ^ k * (st / 2 ^ k) + st % 2 ^ k = st := Nat.div_add_mod st (2 ^ k)
  rcases Nat.eq_zero_or_pos (st % 2 ^ k) with h0 | h0
  · rw [h0, Nat.sub_zero, Nat.mod_self, Nat.add_zero]
    exact h0
  · rw [Nat.mod_eq_of_lt (show 2 ^ k - st % 2 ^ k < 2 ^ k by omega)]
    have key : st + (2 ^ k - st % 2 ^ k) = 2 ^ k * (st / 2 ^ k + 1) := by
      rw [Nat.mul_add, Nat.mul_one]; omega
    rw [key, Nat.mul_mod_right]

/-! ### Correctness of `remove` -/

@[simp] theorem Range.start_mk (x y : Nat) : (⟨x, y⟩ : Range).start = x := rfl
@[simp] theorem Range.stop_mk (x y : Nat) : (⟨x, y⟩ : Range).stop = y := rfl

theorem satSub1_eq (x : Nat) : satSub1 x = x - 1 := rfl

theorem coversL_nilIff (a : Nat) : coversL [] a ↔ False := by simp [coversL]

/-- The observable effect of one structural step of the subtraction loop:
coverage can only shrink, only addresses of `r` are lost, and the
separation invariant is preserved. -/
def StepRel (r : Range) (l₀ l₁ : List Range) : Prop :=
  (∀ a, coversL l₁ a → coversL l₀ a) ∧
  (∀ a, coversL l₀ a → r.memA a ∨ coversL l₁ a) ∧
  (InvL l₀ → InvL l₁)

theorem StepRel_refl (r : Range) (l : List Range) : StepRel r l l :=
  ⟨fun _ h => h, fun _ h => Or.inr h, id⟩

theorem StepRel_trans {r : Range} {l₀ l₁ l₂ : List Range}
    (h : StepRel r l₀ l₁) (h' : StepRel r l₁ l₂) : StepRel r l₀ l₂ := by
  refine ⟨fun a ha => h.1 a (h'.1 a ha), fun a ha => ?_, fun hi => h'.2.2 (h.2.2 hi)⟩
  rcases h.2.1 a ha with hm | hc
  · exact Or.inl hm
  · exact h'.2.1 a hc

/-- Replacing an entry by a sub-entry that only gives up addresses of `r`. -/
theorem StepRel_replace {r e e' : Range} (pre rest : List Range)
    (hsub : ∀ a, e'.memA a → e.memA a)
    (hsup : ∀ a, e.memA a → r.memA a ∨ e'.memA a)
    (hs : e.start ≤ e'.start) (hs2 : e'.stop ≤ e.stop) :
    StepRel r (pre ++ e :: rest) (pre ++ e' :: rest) := by
  refine ⟨?_, ?_, fun hi => InvL_replace hs hs2 hi⟩
  · intro a ha
    simp only [coversL_append, coversL_cons] at ha ⊢
    rcases ha with hp | he | hrest
    · exact Or.inl hp
    · exact Or.inr (Or.inl (hsub a he))
    · exact Or.inr (Or.inr hrest)
  · intro a ha
    simp only [coversL_append, coversL_cons] at ha ⊢
    rcases ha with hp | he | hrest
    · exact Or.inr (Or.inl hp)
    · rcases hsup a he with h | h
      · exact Or.inl h
      · exact Or.inr (Or.inr (Or.inl h))
    · exact Or.inr (Or.inr (Or.inr hrest))

/-- Specification of one scan of the subtraction loop. -/
def RemOK (r : Range) (l₀ : List Range) : RemScan → Prop
  | .panic => True
  | .done l' => wfL l' ∧ StepRel r l₀ l' ∧ ∀ e ∈ l', ¬ Range.overlapsP e r
  | .restart l' => wfL l' ∧ StepRel r l₀ l'

theorem RemOK_pre {r : Range} {l₀ l₁ : List Range} {out : RemScan}
    (h : StepRel r l₀ l₁) : RemOK r l₁ out → RemOK r l₀ out := by
  cases out with
  | panic => exact id
  | done l' => exact fun ⟨hw, hs, hn⟩ => ⟨hw, StepRel_trans h hs, hn⟩
  | restart l' => exact fun ⟨hw, hs⟩ => ⟨hw, StepRel_trans h hs⟩

theorem removeScan_ok (r : Range) (hr : r.start ≤ r.stop) :
    ∀ rest pre, wfL (pre ++ rest) → (∀ e ∈ pre, ¬ Range.overlapsP e r) →
    RemOK r (pre ++ rest) (removeScan r pre rest) := by
  intro rest
  induction rest with
  | nil =>
    intro pre hw hpre
    simp only [removeScan, List.append_nil]
    exact ⟨by simpa using hw, StepRel_refl r pre, hpre⟩
  | cons e rest ih =>
    intro pre hw hpre
    have hwe : e.wfR := hw e (by simp)
    obtain ⟨hwe1, hwe2⟩ := hwe
    by_cases hov : Range.overlapsP e r
    · rw [removeScan, if_pos hov, if_pos hwe1]
      obtain ⟨hov1, hov2⟩ := hov
      by_cases hcont : Range.containsP r e
      · -- the entry is swallowed whole
        rw [if_pos hcont]
        obtain ⟨hc1, hc2⟩ := hcont
        refine ⟨?_, ?_, ?_, ?_⟩
        · rw [wfL_append] at hw ⊢
          exact ⟨hw.1, ((wfL_cons e rest).1 hw.2).2⟩
        · intro a ha
          simp only [coversL_append, coversL_cons] at ha ⊢
          tauto
        · intro a ha
          simp only [coversL_append, coversL_cons] at ha ⊢
          rcases ha with hp | he | hrest
          · exact Or.inr (Or.inl hp)
          · have h1' : e.start ≤ a := he.1
            have h2' : a ≤ e.stop := he.2
            exact Or.inl ⟨by omega, by omega⟩
          · exact Or.inr (Or.inr hrest)
        · exact fun hi => InvL_sublist
            ((List.sublist_cons_self e rest).append_left pre) hi
      · rw [if_neg hcont]
        have hcont' : ¬ (r.start ≤ e.start ∧ e.stop ≤ r.stop) := hcont
        by_cases h1 : r.start ≤ e.start
        · -- trim the start of the entry
          rw [if_pos h1]
          have hstop : r.stop < e.stop := by
            push_neg at hcont'
            exact hcont' h1
          have hsat : satAdd1 r.stop = r.stop + 1 := by
            unfold satAdd1 U64MAX
            unfold U64MAX at hwe2
            omega
          rw [hsat]
          have hstep : StepRel r (pre ++ e :: rest)
              (pre ++ (⟨r.stop + 1, e.stop⟩ : Range) :: rest) := by
            refine StepRel_replace pre rest ?_ ?_
              (by omega : e.start ≤ r.stop + 1) (Nat.le_refl e.stop)
            · intro a ha
              have h1' : r.stop + 1 ≤ a := ha.1
              have h2' : a ≤ e.stop := ha.2
              exact ⟨by omega, h2'⟩
            · intro a ha
              have h1' : e.start ≤ a := ha.1
              have h2' : a ≤ e.stop := ha.2
              rcases le_or_lt a r.stop with hc | hc
              · exact Or.inl ⟨by omega, hc⟩
              · exact Or.inr ⟨show r.stop + 1 ≤ a by omega, h2'⟩
          have hw' : wfL ((pre ++ [(⟨r.stop + 1, e.stop⟩ : Range)]) ++ rest) := by
            rw [wfL_append] at hw
            rw [wfL_cons] at hw
            rw [wfL_append, wfL_append]
            refine ⟨⟨hw.1, ?_⟩, hw.2.2⟩
            intro x hx
            simp only [List.mem_singleton] at hx
            subst hx
            exact ⟨(by omega : r.stop + 1 ≤ e.stop), hwe2⟩
          have hpre' : ∀ x ∈ pre ++ [(⟨r.stop + 1, e.stop⟩ : Range)],
              ¬ Range.overlapsP x r := by
            intro x hx
            rcases List.mem_append.1 hx with hx | hx
            · exact hpre x hx
            · simp only [List.mem_singleton] at hx
              subst hx
              intro hcon
              have : r.stop + 1 ≤ r.stop := hcon.1
              omega
          have IH := ih (pre ++ [(⟨r.stop + 1, e.stop⟩ : Range)]) hw' hpre'
          rw [List.append_assoc, List.singleton_append] at IH
          exact RemOK_pre hstep IH
        · rw [if_neg h1]
          push_neg at h1
          by_cases h2 : r.stop ≥ e.stop
          · -- trim the end of the entry
            rw [if_pos h2, satSub1_eq]
            have hstep : StepRel r (pre ++ e :: rest)
                (pre ++ (⟨e.start, r.start - 1⟩ : Range) :: rest) := by
              refine StepRel_replace pre rest ?_ ?_
                (Nat.le_refl e.start) (by omega : r.start - 1 ≤ e.stop)
              · intro a ha
                have h1' : e.start ≤ a := ha.1
                have h2' : a ≤ r.start - 1 := ha.2
                exact ⟨h1', show a ≤ e.stop by omega⟩
              · intro a ha
                have h1' : e.start ≤ a := ha.1
                have h2' : a ≤ e.stop := ha.2
                rcases Nat.lt_or_ge a r.start with hc | hc
                · exact Or.inr ⟨h1', show a ≤ r.start - 1 by omega⟩
                · exact Or.inl ⟨hc, by omega⟩
            have hw' : wfL ((pre ++ [(⟨e.start, r.start - 1⟩ : Range)]) ++ rest) := by
              rw [wfL_append] at hw
              rw [wfL_cons] at hw
              rw [wfL_append, wfL_append]
              refine ⟨⟨hw.1, ?_⟩, hw.2.2⟩
              intro x hx
              simp only [List.mem_singleton] at hx
              subst hx
              exact ⟨(by omega : e.start ≤ r.start - 1),
                Nat.le_trans (by omega : r.start - 1 ≤ e.stop) hwe2⟩
            have hpre' : ∀ x ∈ pre ++ [(⟨e.start, r.start - 1⟩ : Range)],
                ¬ Range.overlapsP x r := by
              intro x hx
              rcases List.mem_append.1 hx with hx | hx
              · exact hpre x hx
              · simp only [List.mem_singleton] at hx
                subst hx
                intro hcon
                have : r.start ≤ r.start - 1 := hcon.2
                omega
            have IH := ih (pre ++ [(⟨e.start, r.start - 1⟩ : Range)]) hw' hpre'
            rw [List.append_assoc, List.singleton_append] at IH
            exact RemOK_pre hstep IH
          · -- split the entry in two
            rw [if_neg h2]
            push_neg at h2
            have hsat : satAdd1 r.stop = r.stop + 1 := by
              unfold satAdd1 U64MAX
              unfold U64MAX at hwe2
              omega
            by_cases hcap : pre.length + (rest.length + 1) < CAPACITY
            · rw [if_pos hcap, hsat, satSub1_eq]
              have hr1 : 1 ≤ r.start := by omega
              rw [wfL_append, wfL_cons] at hw
              obtain ⟨hwpre, _, hwrest⟩ := hw
              refine ⟨?_, ?_, ?_, ?_⟩
              · -- well-formedness of the split result
                intro x hx
                rw [List.mem_append] at hx
                rcases hx with hx | hx
                · rw [List.mem_append] at hx
                  rcases hx with hx | hx
                  · exact hwpre x hx
                  · rcases List.mem_cons.1 hx with rfl | hx
                    · exact ⟨(by omega : r.stop + 1 ≤ e.stop), hwe2⟩
                    · exact hwrest x hx
                · simp only [List.mem_singleton] at hx
                  subst hx
                  exact ⟨(by omega : e.start ≤ r.start - 1),
                    Nat.le_trans (by omega : r.start - 1 ≤ e.stop) hwe2⟩
              · -- coverage shrinks
                intro a ha
                simp only [coversL_append, coversL_cons, coversL_nilIff, or_false] at ha ⊢
                rcases ha with (hp | hq | hrest) | hq2
                · exact Or.inl hp
                · have h1' : r.stop + 1 ≤ a := hq.1
                  have h2' : a ≤ e.stop := hq.2
                  exact Or.inr (Or.inl ⟨by omega, h2'⟩)
                · exact Or.inr (Or.inr hrest)
                · have h1' : e.start ≤ a := hq2.1
                  have h2' : a ≤ r.start - 1 := hq2.2
                  exact Or.inr (Or.inl ⟨h1', by omega⟩)
              · -- only addresses of `r` are lost
                intro a ha
                simp only [coversL_append, coversL_cons, coversL_nilIff, or_false] at ha ⊢
                rcases ha with hp | he | hrest
                · exact Or.inr (Or.inl (Or.inl hp))
                · have h1' : e.start ≤ a := he.1
                  have h2' : a ≤ e.stop := he.2
                  rcases Nat.lt_or_ge a r.start with hc | hc
                  · exact Or.inr (Or.inr ⟨h1', show a ≤ r.start - 1 by omega⟩)
                  · rcases le_or_lt a r.stop with hd | hd
                    · exact Or.inl ⟨hc, hd⟩
                    · exact Or.inr (Or.inl (Or.inr (Or.inl
                        ⟨show r.stop + 1 ≤ a by omega, h2'⟩)))
                · exact Or.inr (Or.inl (Or.inr (Or.inr hrest)))
              · -- the separation invariant is preserved
                intro hi
                unfold InvL at hi ⊢
                rw [List.pairwise_append, List.pairwise_cons] at hi
                obtain ⟨hpp, ⟨hesep, hrr⟩, hxall⟩ := hi
                refine List.pairwise_append.2 ⟨?_, by simp, ?_⟩
                · refine List.pairwise_append.2 ⟨hpp, ?_, ?_⟩
                  · rw [List.pairwise_cons]
                    refine ⟨?_, hrr⟩
                    intro b hb
                    exact sepRange_shrink_left
                      (show e.start ≤ r.stop + 1 by omega) (Nat.le_refl e.stop)
                      (hesep b hb)
                  · intro x hx b hb
                    rcases List.mem_cons.1 hb with rfl | hb
                    · exact sepRange_shrink_right
                        (show e.start ≤ r.stop + 1 by omega) (Nat.le_refl e.stop)
                        (hxall x hx e (List.mem_cons_self _ _))
                    · exact hxall x hx b (List.mem_cons_of_mem _ hb)
                · intro x hx b hb
                  simp only [List.mem_singleton] at hb
                  subst hb
                  rcases List.mem_append.1 hx with hx | hx
                  · exact sepRange_shrink_right
                      (Nat.le_refl e.start) (show r.start - 1 ≤ e.stop by omega)
                      (hxall x hx e (List.mem_cons_self _ _))
                  · rcases List.mem_cons.1 hx with rfl | hx
                    · exact Or.inr (show r.start - 1 + 1 < r.stop + 1 by omega)
                    · exact sepRange_shrink_right
                        (Nat.le_refl e.start) (show r.start - 1 ≤ e.stop by omega)
                        (sepRange_symmetric (hesep x hx))
            · rw [if_neg hcap]
              trivial
    · -- no overlap: skip the entry
      rw [removeScan, if_neg hov]
      have hw' : wfL ((pre ++ [e]) ++ rest) := by
        rw [List.append_assoc, List.singleton_append]
        exact hw
      have hpre' : ∀ x ∈ pre ++ [e], ¬ Range.overlapsP x r := by
        intro x hx
        rcases List.mem_append.1 hx with hx | hx
        · exact hpre x hx
        · simp only [List.mem_singleton] at hx
          subst hx
          exact hov
      have IH := ih (pre ++ [e]) hw' hpre'
      rw [List.append_assoc, List.singleton_append] at IH
      exact IH

theorem removeLoop_ok {r : Range} (hr : r.start ≤ r.stop) :
    ∀ fuel l l', wfL l → removeLoop fuel r l = some l' →
    wfL l' ∧ StepRel r l l' ∧ ∀ e ∈ l', ¬ Range.overlapsP e r := by
  intro fuel
  induction fuel with
  | zero => intro l l' _ h; simp [removeLoop] at h
  | succ fuel ih =>
    intro l l' hw h
    rw [removeLoop] at h
    have hscan := removeScan_ok r hr l [] (by simpa using hw) (by simp)
    rw [List.nil_append] at hscan
    rcases hout : removeScan r [] l with _ | l₁ | l₁ <;> rw [hout] at h hscan
    · exact absurd h (by simp)
    · obtain ⟨hw₁, hs₁, hn₁⟩ := hscan
      obtain rfl : l₁ = l' := by simpa using h
      exact ⟨hw₁, hs₁, hn₁⟩
    · obtain ⟨hw₁, hs₁⟩ := hscan
      obtain ⟨hw', hs', hn'⟩ := ih l₁ l' hw₁ h
      exact ⟨hw', StepRel_trans hs₁ hs', hn'⟩

/-- Summary of `RangeSet::remove`: on success the entries stay well-formed,
the separation invariant is preserved, and the coverage is exactly the old
coverage minus the addresses of the removed range. -/
theorem remove_ok {s s' : RangeSet} {r : Range} (hw : wfL s.ranges)
    (h : s.remove r = some s') :
    wfL s'.ranges ∧ (InvL s.ranges → InvL s'.ranges) ∧
    (∀ a, s'.coversS a ↔ (s.coversS a ∧ ¬ r.memA a)) := by
  unfold RangeSet.remove at h
  by_cases hr : r.start ≤ r.stop
  · rw [if_pos hr] at h
    rcases hl : removeLoop (s.ranges.length + 1) r s.ranges with _ | l' <;>
      rw [hl] at h
    · exact absurd h (by simp)
    · obtain rfl : RangeSet.mk l' = s' := by simpa using h
      obtain ⟨hw', hs', hn'⟩ := removeLoop_ok hr _ s.ranges l' hw hl
      refine ⟨hw', hs'.2.2, ?_⟩
      intro a
      unfold RangeSet.coversS
      constructor
      · intro ha
        refine ⟨hs'.1 a ha, ?_⟩
        intro hmem
        obtain ⟨e, he, hea⟩ := ha
        have h1' : e.start ≤ a := hea.1
        have h2' : a ≤ e.stop := hea.2
        have h3' : r.start ≤ a := hmem.1
        have h4' : a ≤ r.stop := hmem.2
        exact hn' e he ⟨by omega, by omega⟩
      · intro ⟨ha, hmem⟩
        rcases hs'.2.1 a ha with hm | hc
        · exact absurd hm hmem
        · exact hc
  · rw [if_neg hr] at h
    exact absurd h (by simp)

/-! ### Correctness of `insert` -/

/-- The touching-or-overlapping test of the merge loop (the overlap test of
the widened ranges `first` / `second`). -/
def touchesC (e r : Range) : Prop :=
  Range.overlapsP ⟨e.start, satAdd1 e.stop⟩ ⟨r.start, satAdd1 r.stop⟩

instance (e r : Range) : Decidable (touchesC e r) := by
  unfold touchesC; exact inferInstance

theorem touchesC_iff (e r : Range) :
    touchesC e r ↔ (e.start ≤ satAdd1 r.stop ∧ r.start ≤ satAdd1 e.stop) := Iff.rfl

/-- Merging a touching/overlapping pair covers exactly the union. -/
theorem merge_cover {e r : Range} (ht : touchesC e r) (a : Nat) :
    Range.memA ⟨min e.start r.start, max e.stop r.stop⟩ a ↔ (e.memA a ∨ r.memA a) := by
  rw [touchesC_iff] at ht
  obtain ⟨ht1, ht2⟩ := ht
  have ht1' : e.start ≤ r.stop + 1 := le_trans ht1 (min_le_left _ _)
  have ht2' : r.start ≤ e.stop + 1 := le_trans ht2 (min_le_left _ _)
  unfold Range.memA
  simp only [Range.start_mk, Range.stop_mk]
  omega

/-- Two well-formed ranges that fail the touching test are separated. -/
theorem notTouch_sep {e r : Range} (he : e.wfR) (hr : r.wfR)
    (h : ¬ touchesC e r) : sepRange e r := by
  rw [touchesC_iff] at h
  push_neg at h
  obtain ⟨he1, he2⟩ := he
  obtain ⟨hr1, hr2⟩ := hr
  unfold satAdd1 U64MAX at h
  unfold U64MAX at he2 hr2
  unfold sepRange
  omega

/-- Specification of one scan of the merge loop. -/
def InsOK (r : Range) (l₀ : List Range) : InsScan → Prop
  | .panic => True
  | .done l' => l' = l₀ ∧ ∀ e ∈ l', ¬ touchesC e r
  | .merge l' r' => l'.Sublist l₀ ∧ r'.wfR ∧
      (∀ a, (coversL l' a ∨ r'.memA a) ↔ (coversL l₀ a ∨ r.memA a))

theorem le_satAdd1 {x : Nat} (h : x ≤ U64MAX) : x ≤ satAdd1 x := by
  unfold satAdd1; omega

theorem insertScan_ok (r : Range) (hrw : r.wfR) :
    ∀ rest pre, wfL (pre ++ rest) → (∀ e ∈ pre, ¬ touchesC e r) →
    InsOK r (pre ++ rest) (insertScan r pre rest) := by
  intro rest
  induction rest with
  | nil =>
    intro pre hw hpre
    simp only [insertScan, List.append_nil]
    exact ⟨rfl, hpre⟩
  | cons e rest ih =>
    intro pre hw hpre
    have hwe : e.wfR := hw e (by simp)
    rw [insertScan, if_pos (le_trans hwe.1 (le_satAdd1 hwe.2)),
      if_pos (le_trans hrw.1 (le_satAdd1 hrw.2))]
    by_cases ht : Range.overlapsP ⟨e.start, satAdd1 e.stop⟩ ⟨r.start, satAdd1 r.stop⟩
    · rw [if_pos ht]
      have ht' : touchesC e r := ht
      refine ⟨?_, ?_, ?_⟩
      · exact (List.sublist_cons_self e rest).append_left pre
      · refine ⟨?_, ?_⟩
        · show min e.start r.start ≤ max e.stop r.stop
          have h1 := hwe.1
          omega
        · show max e.stop r.stop ≤ U64MAX
          have h2 := hwe.2
          have h3 := hrw.2
          omega
      · intro a
        rw [merge_cover ht' a]
        simp only [coversL_append, coversL_cons]
        tauto
    · rw [if_neg ht]
      have hw' : wfL ((pre ++ [e]) ++ rest) := by
        rw [List.append_assoc, List.singleton_append]
        exact hw
      have hpre' : ∀ x ∈ pre ++ [e], ¬ touchesC x r := by
        intro x hx
        rcases List.mem_append.1 hx with hx | hx
        · exact hpre x hx
        · simp only [List.mem_singleton] at hx
          subst hx
          exact ht
      have IH := ih (pre ++ [e]) hw' hpre'
      rw [List.append_assoc, List.singleton_append] at IH
      exact IH

theorem insertLoop_ok :
    ∀ fuel r l l' r', r.wfR → wfL l → insertLoop fuel r l = some (l', r') →
    l'.Sublist l ∧ r'.wfR ∧ (∀ e ∈ l', ¬ touchesC e r') ∧
    (∀ a, (coversL l' a ∨ r'.memA a) ↔ (coversL l a ∨ r.memA a)) := by
  intro fuel
  induction fuel with
  | zero => intro r l l' r' _ _ h; simp [insertLoop] at h
  | succ fuel ih =>
    intro r l l' r' hrw hw h
    rw [insertLoop] at h
    have hscan := insertScan_ok r hrw l [] (by simpa using hw) (by simp)
    rw [List.nil_append] at hscan
    rcases hout : insertScan r [] l with _ | l₁ | ⟨l₁, r₁⟩ <;> rw [hout] at h hscan
    · exact absurd h (by simp)
    · obtain ⟨rfl, hn⟩ := hscan
      simp only [Option.some.injEq, Prod.mk.injEq] at h
      obtain ⟨rfl, rfl⟩ := h
      exact ⟨List.Sublist.refl _, hrw, hn, fun a => Iff.rfl⟩
    · obtain ⟨hsub, hw₁, hcov₁⟩ := hscan
      obtain ⟨hsub', hw', hn', hcov'⟩ :=
        ih r₁ l₁ l' r' hw₁ (wfL_sublist hsub hw) h
      exact ⟨hsub'.trans hsub, hw', hn',
        fun a => (hcov' a).trans (hcov₁ a)⟩

/-- Summary of `RangeSet::insert`: on success the entries stay well-formed,
the separation invariant is preserved, and the coverage is the old coverage
plus the addresses of the inserted range. -/
theorem insert_ok {s s' : RangeSet} {r : Range} (hw : wfL s.ranges)
    (hrw : r.wfR) (h : s.insert r = some s') :
    wfL s'.ranges ∧ (InvL s.ranges → InvL s'.ranges) ∧
    (∀ a, s'.coversS a ↔ (s.coversS a ∨ r.memA a)) := by
  unfold RangeSet.insert at h
  rw [if_pos hrw.1] at h
  rcases hl : insertLoop (s.ranges.length + 1) r s.ranges with _ | ⟨l', r'⟩ <;>
    rw [hl] at h
  · exact absurd h (by simp)
  · by_cases hcap : l'.length < CAPACITY
    · obtain rfl : RangeSet.mk (l' ++ [r']) = s' := by simpa [hcap] using h
      obtain ⟨hsub, hw', hn', hcov'⟩ :=
        insertLoop_ok _ r s.ranges l' r' hrw hw hl
      refine ⟨?_, ?_, ?_⟩
      · rw [wfL_append]
        refine ⟨wfL_sublist hsub hw, ?_⟩
        intro x hx
        simp only [List.mem_singleton] at hx
        subst hx
        exact hw'
      · intro hi
        unfold InvL at hi ⊢
        apply List.pairwise_append.2
        refine ⟨InvL_sublist hsub hi, by simp, ?_⟩
        intro x hx b hb
        simp only [List.mem_singleton] at hb
        subst hb
        exact notTouch_sep (wfL_sublist hsub hw x hx) hw' (hn' x hx)
      · intro a
        unfold RangeSet.coversS
        simp only [coversL_append, coversL_cons, coversL_nilIff, or_false]
        exact hcov' a
    · exfalso
      simp [hcap] at h

/-! ### A separated, well-formed entry list is determined by its coverage -/

theorem mem_of_cov_sub {l₁ l₂ : List Range} (w₁ : wfL l₁) (i₁ : InvL l₁)
    (w₂ : wfL l₂) (i₂ : InvL l₂)
    (hcov : ∀ a, coversL l₁ a ↔ coversL l₂ a) {e : Range} (he : e ∈ l₁) :
    e ∈ l₂ := by
  have hew : e.wfR := w₁ e he
  obtain ⟨hew1, hew2⟩ := hew
  obtain ⟨f, hf, hf1⟩ : coversL l₂ e.start :=
    (hcov e.start).1 ⟨e, he, le_refl _, hew1⟩
  have hfs : f.start ≤ e.start := hf1.1
  have hfe : e.start ≤ f.stop := hf1.2
  have hfw1 : f.start ≤ f.stop := (w₂ f hf).1
  have hstart : f.start = e.start := by
    by_contra hne
    have hlt : f.start < e.start := by omega
    have hc1 : coversL l₁ (e.start - 1) :=
      (hcov _).2 ⟨f, hf, by omega, by omega⟩
    obtain ⟨g, hg, hg1⟩ := hc1
    have hg1' : g.start ≤ e.start - 1 := hg1.1
    have hg2' : e.start - 1 ≤ g.stop := hg1.2
    have hne2 : g ≠ e := by
      intro hEq
      subst hEq
      omega
    have hsep := List.Pairwise.forall sepRange_symmetric i₁ hg he hne2
    unfold sepRange at hsep
    omega
  have hstop : f.stop = e.stop := by
    rcases lt_trichotomy f.stop e.stop with hlt | hEq | hgt
    · exfalso
      have hc : coversL l₂ (f.stop + 1) := (hcov _).1 ⟨e, he, by omega, by omega⟩
      obtain ⟨f', hf', h1⟩ := hc
      have h1' : f'.start ≤ f.stop + 1 := h1.1
      have h2' : f.stop + 1 ≤ f'.stop := h1.2
      have hne : f' ≠ f := by
        intro hEq
        subst hEq
        omega
      have hsep := List.Pairwise.forall sepRange_symmetric i₂ hf' hf hne
      unfold sepRange at hsep
      omega
    · exact hEq
    · exfalso
      have hc : coversL l₁ (e.stop + 1) := (hcov _).2 ⟨f, hf, by omega, by omega⟩
      obtain ⟨g, hg, h1⟩ := hc
      have h1' : g.start ≤ e.stop + 1 := h1.1
      have h2' : e.stop + 1 ≤ g.stop := h1.2
      have hne : g ≠ e := by
        intro hEq
        subst hEq
        omega
      have hsep := List.Pairwise.forall sepRange_symmetric i₁ hg he hne
      unfold sepRange at hsep
      omega
  have hfe2 : f = e := by
    cases f
    cases e
    simp_all
  rwa [hfe2] at hf

theorem entries_of_cov {l₁ l₂ : List Range} (w₁ : wfL l₁) (i₁ : InvL l₁)
    (w₂ : wfL l₂) (i₂ : InvL l₂)
    (hcov : ∀ a, coversL l₁ a ↔ coversL l₂ a) :
    ∀ e, e ∈ l₁ ↔ e ∈ l₂ := fun _ =>
  ⟨mem_of_cov_sub w₁ i₁ w₂ i₂ hcov,
   mem_of_cov_sub w₂ i₂ w₁ i₁ (fun a => (hcov a).symm)⟩

/-! ### Unpacking `allocate` -/

theorem allocate_ok_inv {usizeMax size align p : Nat} {s s' : RangeSet}
    {regions : Option RangeSet}
    (h : s.allocate usizeMax size align regions = .ok p s') :
    size ≠ 0 ∧ count_ones align = 1 ∧
    ∃ st en, allocGo usizeMax size align regions s.ranges none =
        .finished (some (st, en, p)) ∧ s.remove ⟨st, en⟩ = some s' := by
  unfold RangeSet.allocate at h
  by_cases h0 : size = 0
  · rw [if_pos h0] at h
    simp at h
  · rw [if_neg h0] at h
    by_cases h1 : count_ones align ≠ 1
    · rw [if_pos h1] at h
      simp at h
    · rw [if_neg h1] at h
      push_neg at h1
      rcases hg : allocGo usizeMax size align regions s.ranges none with
        _ | _ | best <;> rw [hg] at h
      · simp at h
      · simp at h
      · rcases best with _ | ⟨st, en, ptr⟩
        · simp at h
        · have h' : (match s.remove ⟨st, en⟩ with
              | none => AllocResult.panic
              | some s₁ => AllocResult.ok ptr s₁) = .ok p s' := h
          rcases hrem : s.remove ⟨st, en⟩ with _ | s₁ <;> rw [hrem] at h'
          · simp at h'
          · simp only [AllocResult.ok.injEq] at h'
            obtain ⟨rfl, rfl⟩ := h'
            exact ⟨h0, h1, st, en, rfl, hrem⟩

/-- Every `.fail` of `allocate` returns the set untouched. -/
theorem allocate_fail_inv {usizeMax size align : Nat} {s s' : RangeSet}
    {regions : Option RangeSet}
    (h : s.allocate usizeMax size align regions = .fail s') : s' = s := by
  unfold RangeSet.allocate at h
  by_cases h0 : size = 0
  · rw [if_pos h0] at h
    simpa [eq_comm] using h
  · rw [if_neg h0] at h
    by_cases h1 : count_ones align ≠ 1
    · rw [if_pos h1] at h
      simpa [eq_comm] using h
    · rw [if_neg h1] at h
      rcases hg : allocGo usizeMax size align regions s.ranges none with
        _ | _ | best <;> rw [hg] at h
      · simp at h
      · simpa [eq_comm] using h
      · rcases best with _ | ⟨st, en, ptr⟩
        · simpa [eq_comm] using h
        · have h' : (match s.remove ⟨st, en⟩ with
              | none => AllocResult.panic
              | some s₁ => AllocResult.ok ptr s₁) = .fail s' := h
          rcases hrem : s.remove ⟨st, en⟩ with _ | s₁ <;> rw [hrem] at h'
          · simp at h'
          · simp at h'

/-! ### Reachability -/

/-- States reachable from the empty set by successful `insert` / `remove`
calls with valid `u64` arguments. -/
inductive ReachableIR : RangeSet → Prop where
  | base : ReachableIR RangeSet.new
  | insert {s s' : RangeSet} {r : Range} : ReachableIR s → r.wfR →
      s.insert r = some s' → ReachableIR s'
  | remove {s s' : RangeSet} {r : Range} : ReachableIR s → r.wfR →
      s.remove r = some s' → ReachableIR s'

/-- States reachable from the empty set by successful `insert`, `remove`
and `allocate` calls. -/
inductive Reachable : RangeSet → Prop where
  | base : Reachable RangeSet.new
  | insert {s s' : RangeSet} {r : Range} : Reachable s → r.wfR →
      s.insert r = some s' → Reachable s'
  | remove {s s' : RangeSet} {r : Range} : Reachable s → r.wfR →
      s.remove r = some s' → Reachable s'
  | alloc {s s' : RangeSet} {usizeMax size align p : Nat}
      {regions : Option RangeSet} : Reachable s →
      s.allocate usizeMax size align regions = .ok p s' → Reachable s'

theorem reachIR_wf_inv {s : RangeSet} (h : ReachableIR s) :
    wfL s.ranges ∧ InvL s.ranges := by
  induction h with
  | base => exact ⟨fun e he => absurd he (by simp [RangeSet.new]), by simp [RangeSet.new, InvL]⟩
  | insert hr hrw hs ih =>
    obtain ⟨hw, hi⟩ := ih
    obtain ⟨h1, h2, _⟩ := insert_ok hw hrw hs
    exact ⟨h1, h2 hi⟩
  | remove hr hrw hs ih =>
    obtain ⟨hw, hi⟩ := ih
    obtain ⟨h1, h2, _⟩ := remove_ok hw hs
    exact ⟨h1, h2 hi⟩

theorem reach_wf_inv {s : RangeSet} (h : Reachable s) :
    wfL s.ranges ∧ InvL s.ranges := by
  induction h with
  | base => exact ⟨fun e he => absurd he (by simp [RangeSet.new]), by simp [RangeSet.new, InvL]⟩
  | insert hr hrw hs ih =>
    obtain ⟨hw, hi⟩ := ih
    obtain ⟨h1, h2, _⟩ := insert_ok hw hrw hs
    exact ⟨h1, h2 hi⟩
  | remove hr hrw hs ih =>
    obtain ⟨hw, hi⟩ := ih
    obtain ⟨h1, h2, _⟩ := remove_ok hw hs
    exact ⟨h1, h2 hi⟩
  | alloc hr hs ih =>
    obtain ⟨hw, hi⟩ := ih
    obtain ⟨_, _, st, en, _, hrem⟩ := allocate_ok_inv hs
    obtain ⟨h1, h2, _⟩ := remove_ok hw hrem
    exact ⟨h1, h2 hi⟩

/-! ### Candidate entries of the fallback pass -/

/-- Entry `e` passes all the guards of the fallback pass of `allocate`:
the two `checked_add` bounds, addressability, and the fit check
`end <= entry.end`. -/
def isCand (usizeMax size align : Nat) (e : Range) : Prop :=
  e.start + (size - 1) ≤ U64MAX ∧ allocEnd size align e ≤ U64MAX ∧
  e.start ≤ usizeMax ∧ allocEnd size align e ≤ usizeMax ∧
  allocEnd size align e ≤ e.stop

instance (usizeMax size align : Nat) (e : Range) :
    Decidable (isCand usizeMax size align e) := by
  unfold isCand; exact inferInstance

theorem allocGo_none_nocand {usizeMax size align : Nat} :
    ∀ rest : List Range, (∀ e ∈ rest, ¬ isCand usizeMax size align e) →
    allocGo usizeMax size align none rest none = .earlyRet ∨
    allocGo usizeMax size align none rest none = .finished none := by
  intro rest
  induction rest with
  | nil => exact fun _ => Or.inr rfl
  | cons e rest ih =>
    intro hnc
    have hne : ¬ isCand usizeMax size align e := hnc e (by simp)
    have hrec := ih (fun x hx => hnc x (by simp [hx]))
    by_cases hb1 : e.start + (size - 1) > U64MAX
    · left
      simp only [allocGo]
      rw [if_pos hb1]
    · by_cases hb2 : allocEnd size align e > U64MAX
      · left
        simp only [allocGo]
        rw [if_neg hb1, if_pos hb2]
      · by_cases hb3 : e.start > usizeMax ∨ allocEnd size align e > usizeMax
        · have heq : allocGo usizeMax size align none (e :: rest) none =
              allocGo usizeMax size align none rest none := by
            simp only [allocGo]
            rw [if_neg hb1, if_neg hb2, if_pos hb3]
          rw [heq]
          exact hrec
        · by_cases hb4 : allocEnd size align e > e.stop
          · have heq : allocGo usizeMax size align none (e :: rest) none =
                allocGo usizeMax size align none rest none := by
              simp only [allocGo]
              rw [if_neg hb1, if_neg hb2, if_neg hb3, if_pos hb4]
            rw [heq]
            exact hrec
          · exfalso
            push_neg at hb3
            exact hne ⟨by omega, by omega, hb3.1, hb3.2, by omega⟩

/-! ### Claim theorems -/

/-- Claim C1: for every `RangeSet` reachable from the empty set by any
sequence of successful `insert` / `remove` calls with valid arguments, no
two live entries overlap and no two live entries touch (`a.end + 1 ==
b.start` holds for no pair of distinct live entries). -/
theorem rangeSet_no_overlap_no_touch (s : RangeSet) (h : ReachableIR s) :
    s.entries.Pairwise (fun a b =>
      ¬ (a.start ≤ b.stop ∧ b.start ≤ a.stop) ∧
      a.stop + 1 ≠ b.start ∧ b.stop + 1 ≠ a.start) := by
  obtain ⟨hw, hi⟩ := reachIR_wf_inv h
  unfold InvL at hi
  unfold RangeSet.entries
  refine List.Pairwise.imp_of_mem ?_ hi
  intro a b ha hb hsep
  obtain ⟨ha1, _⟩ := hw a ha
  obtain ⟨hb1, _⟩ := hw b hb
  unfold sepRange at hsep
  exact ⟨by omega, by omega, by omega⟩

/-- Witness for C1 at a concrete reachable state. -/
theorem rangeSet_no_overlap_no_touch_witness :
    ReachableIR (RangeSet.mk [⟨5, 10⟩]) ∧
    (RangeSet.mk [⟨5, 10⟩]).entries.Pairwise (fun a b =>
      ¬ (a.start ≤ b.stop ∧ b.start ≤ a.stop) ∧
      a.stop + 1 ≠ b.start ∧ b.stop + 1 ≠ a.start) :=
  have hre : ReachableIR (RangeSet.mk [⟨5, 10⟩]) :=
    @ReachableIR.insert RangeSet.new ⟨[⟨5, 10⟩]⟩ ⟨5, 10⟩
      ReachableIR.base (by decide) (by decide)
  ⟨hre, rangeSet_no_overlap_no_touch _ hre⟩

/-- Claim C9: every entry exposed by `entries()` of a `RangeSet` reachable
by successful `insert` / `remove` / `allocate` calls satisfies
`start <= end`. -/
theorem entries_start_le_end (s : RangeSet) (h : Reachable s) :
    ∀ e ∈ s.entries, e.start ≤ e.stop := by
  intro e he
  exact ((reach_wf_inv h).1 e he).1

/-- Witness for C9 at a concrete reachable state (including an `allocate`
step). -/
theorem entries_start_le_end_witness :
    Reachable (RangeSet.mk [⟨16, 100⟩]) ∧
    ∀ e ∈ (RangeSet.mk [⟨16, 100⟩]).entries, e.start ≤ e.stop :=
  have hre : Reachable (RangeSet.mk [⟨16, 100⟩]) :=
    @Reachable.alloc ⟨[⟨0, 100⟩]⟩ ⟨[⟨16, 100⟩]⟩ U64MAX 16 16 0 none
      (@Reachable.insert RangeSet.new ⟨[⟨0, 100⟩]⟩ ⟨0, 100⟩
        Reachable.base (by decide) (by decide))
      (by decide)
  ⟨hre, entries_start_le_end _ hre⟩

/-- Claim C10: a descriptor whose `size` field is 0 is ignored in both
passes of the memory-map initialization: it is neither inserted nor
removed, and the free set is returned unchanged (in particular
`base + size - 1` is never computed on it). -/
theorem e820_zero_size_skipped (add : Bool) (fm : RangeSet)
    (d : AddressRangeDescriptor) (h : d.size = 0) :
    processE820 add fm d = some fm := by
  unfold processE820
  rw [if_neg (by simp [h]), if_neg (by simp [h])]

/-- Witness for C10. -/
theorem e820_zero_size_skipped_witness :
    (⟨123, 0, 1⟩ : AddressRangeDescriptor).size = 0 ∧
    processE820 true ⟨[⟨0, 5⟩]⟩ ⟨123, 0, 1⟩ = some ⟨[⟨0, 5⟩]⟩ ∧
    processE820 false ⟨[⟨0, 5⟩]⟩ ⟨123, 0, 7⟩ = some ⟨[⟨0, 5⟩]⟩ :=
  ⟨rfl, e820_zero_size_skipped true ⟨[⟨0, 5⟩]⟩ ⟨123, 0, 1⟩ rfl,
    e820_zero_size_skipped false ⟨[⟨0, 5⟩]⟩ ⟨123, 0, 7⟩ rfl⟩

/-- Counterexample to C5 as stated: the global allocator's `alloc` called
before initialization does not abort; it returns the sentinel null pointer
`0` (the state stays uninitialized). -/
theorem galloc_uninit_cex :
    gallocAlloc none 8 8 = .res 0 none ∧ gallocAlloc none 8 8 ≠ .panic :=
  ⟨rfl, by decide⟩

/-- Amended C5: calling the front-end `alloc` before initialization
returns the null-pointer sentinel `0` and leaves the shared state
uninitialized; the function itself does not panic (any abort is deferred
to the runtime's allocation-error handler, outside this function). -/
theorem galloc_uninit_returns_null (size align : Nat) :
    gallocAlloc none size align = .res 0 none := rfl

/-- Counterexample to C6 as stated: `allocate` with `size == 0`, or with a
non-power-of-two `align`, returns the recoverable failure value `None`
with the set unchanged; it does not abort. -/
theorem allocate_invalid_cex :
    RangeSet.allocate U64MAX ⟨[⟨0, 100⟩]⟩ 0 8 none = .fail ⟨[⟨0, 100⟩]⟩ ∧
    RangeSet.allocate U64MAX ⟨[⟨0, 100⟩]⟩ 0 8 none ≠ .panic ∧
    RangeSet.allocate U64MAX ⟨[⟨0, 100⟩]⟩ 16 6 none = .fail ⟨[⟨0, 100⟩]⟩ ∧
    RangeSet.allocate U64MAX ⟨[⟨0, 100⟩]⟩ 16 6 none ≠ .panic := by
  refine ⟨by decide, by decide, by decide, by decide⟩

/-- Amended C6: `allocate` with `size == 0` or with an `align` whose
popcount is not 1 returns the recoverable failure value `None` and leaves
the set unchanged. -/
theorem allocate_invalid_fails (usizeMax : Nat) (s : RangeSet)
    (size align : Nat) (regions : Option RangeSet)
    (h : size = 0 ∨ count_ones align ≠ 1) :
    s.allocate usizeMax size align regions = .fail s := by
  unfold RangeSet.allocate
  by_cases h0 : size = 0
  · rw [if_pos h0]
  · rw [if_neg h0]
    have h1 : count_ones align ≠ 1 := by tauto
    rw [if_pos h1]

/-- Witness for the amended C6. -/
theorem allocate_invalid_fails_witness :
    ((0 : Nat) = 0 ∨ count_ones 8 ≠ 1) ∧
    RangeSet.allocate U64MAX ⟨[⟨0, 100⟩]⟩ 0 8 none = .fail ⟨[⟨0, 100⟩]⟩ :=
  ⟨Or.inl rfl,
    allocate_invalid_fails U64MAX ⟨[⟨0, 100⟩]⟩ 0 8 none (Or.inl rfl)⟩

/-- Claim C7: whenever `allocate` fails it returns the failure value and
leaves the live entries exactly unchanged; it does fail on an empty set,
and (for an unhinted call) whenever no entry passes the fallback guards. -/
theorem allocate_failure_behavior (usizeMax size align : Nat)
    (s s' : RangeSet) (regions : Option RangeSet) :
    (s.allocate usizeMax size align regions = .fail s' →
      s'.entries = s.entries) ∧
    (s.entries = [] → s.allocate usizeMax size align regions = .fail s) ∧
    ((∀ e ∈ s.entries, ¬ isCand usizeMax size align e) →
      s.allocate usizeMax size align none = .fail s) := by
  refine ⟨?_, ?_, ?_⟩
  · intro h
    rw [allocate_fail_inv h]
  · intro h
    have hh : s.ranges = [] := h
    unfold RangeSet.allocate
    by_cases h0 : size = 0
    · rw [if_pos h0]
    · rw [if_neg h0]
      by_cases h1 : count_ones align ≠ 1
      · rw [if_pos h1]
      · rw [if_neg h1, hh]
        rfl
  · intro h
    unfold RangeSet.allocate
    by_cases h0 : size = 0
    · rw [if_pos h0]
    · rw [if_neg h0]
      by_cases h1 : count_ones align ≠ 1
      · rw [if_pos h1]
      · rw [if_neg h1]
        rcases allocGo_none_nocand s.ranges h with hg | hg <;> rw [hg]

/-- Witness for C7. -/
theorem allocate_failure_behavior_witness :
    (RangeSet.allocate U64MAX ⟨[]⟩ 5 4 none = .fail ⟨[]⟩ ∧
      RangeSet.entries ⟨[]⟩ = RangeSet.entries ⟨[]⟩) ∧
    ((⟨[]⟩ : RangeSet).entries = [] ∧
      RangeSet.allocate U64MAX ⟨[]⟩ 5 4 none = .fail ⟨[]⟩) ∧
    ((∀ e ∈ (⟨[⟨0, 2⟩]⟩ : RangeSet).entries, ¬ isCand U64MAX 10 4 e) ∧
      RangeSet.allocate U64MAX ⟨[⟨0, 2⟩]⟩ 10 4 none = .fail ⟨[⟨0, 2⟩]⟩) :=
  ⟨⟨by decide, (allocate_failure_behavior U64MAX 5 4 ⟨[]⟩ ⟨[]⟩ none).1 (by decide)⟩,
   ⟨rfl, (allocate_failure_behavior U64MAX 5 4 ⟨[]⟩ ⟨[]⟩ none).2.1 rfl⟩,
   ⟨by decide, (allocate_failure_behavior U64MAX 10 4 ⟨[⟨0, 2⟩]⟩ ⟨[]⟩ none).2.2
      (by decide)⟩⟩

/-- Claim C8: inserting a range disjoint from every live entry of an
invariant-satisfying set, then removing that exact range, restores the set
of live entries. -/
theorem insert_remove_roundtrip {s s₁ s₂ : RangeSet} {r : Range}
    (hw : wfL s.ranges) (hinv : InvL s.ranges) (hrw : r.wfR)
    (hdisj : ∀ e ∈ s.entries, ¬ Range.overlapsP e r)
    (h1 : s.insert r = some s₁) (h2 : s₁.remove r = some s₂) :
    ∀ e, e ∈ s₂.entries ↔ e ∈ s.entries := by
  obtain ⟨hw₁, hi₁, hcov₁⟩ := insert_ok hw hrw h1
  obtain ⟨hw₂, hi₂, hcov₂⟩ := remove_ok hw₁ h2
  have hnc : ∀ a, r.memA a → ¬ s.coversS a := by
    intro a hmem hc
    obtain ⟨e, he, hea⟩ := hc
    have h1' : e.start ≤ a := hea.1
    have h2' : a ≤ e.stop := hea.2
    have h3' : r.start ≤ a := hmem.1
    have h4' : a ≤ r.stop := hmem.2
    exact hdisj e he ⟨by omega, by omega⟩
  have hcov : ∀ a, coversL s₂.ranges a ↔ coversL s.ranges a := by
    intro a
    have e2 : coversL s₂.ranges a ↔ s₂.coversS a := Iff.rfl
    rw [e2, hcov₂ a, hcov₁ a]
    constructor
    · rintro ⟨hc | hm, hnm⟩
      · exact hc
      · exact absurd hm hnm
    · intro hc
      exact ⟨Or.inl hc, fun hm => hnc a hm hc⟩
  exact fun e => entries_of_cov hw₂ (hi₂ (hi₁ hinv)) hw hinv hcov e

/-- Witness for C8. -/
theorem insert_remove_roundtrip_witness :
    (wfL (RangeSet.mk [⟨0, 10⟩, ⟨100, 200⟩]).ranges ∧
     InvL (RangeSet.mk [⟨0, 10⟩, ⟨100, 200⟩]).ranges ∧
     Range.wfR ⟨50, 60⟩ ∧
     (∀ e ∈ (RangeSet.mk [⟨0, 10⟩, ⟨100, 200⟩]).entries,
        ¬ Range.overlapsP e ⟨50, 60⟩) ∧
     (RangeSet.mk [⟨0, 10⟩, ⟨100, 200⟩]).insert ⟨50, 60⟩ =
        some ⟨[⟨0, 10⟩, ⟨100, 200⟩, ⟨50, 60⟩]⟩ ∧
     (RangeSet.mk [⟨0, 10⟩, ⟨100, 200⟩, ⟨50, 60⟩]).remove ⟨50, 60⟩ =
        some ⟨[⟨0, 10⟩, ⟨100, 200⟩]⟩) ∧
    (∀ e, e ∈ (RangeSet.mk [⟨0, 10⟩, ⟨100, 200⟩]).entries ↔
        e ∈ (RangeSet.mk [⟨0, 10⟩, ⟨100, 200⟩]).entries) :=
  ⟨⟨by decide, by decide, by decide, by decide, by decide, by decide⟩,
    @insert_remove_roundtrip ⟨[⟨0, 10⟩, ⟨100, 200⟩]⟩
      ⟨[⟨0, 10⟩, ⟨100, 200⟩, ⟨50, 60⟩]⟩ ⟨[⟨0, 10⟩, ⟨100, 200⟩]⟩ ⟨50, 60⟩
      (by decide) (by decide) (by decide) (by decide) (by decide) (by decide)⟩

/-! ### Characterizing successful scans of `allocate` -/

/-- The hinted pass produced `t` from entry `e` and some hint region. -/
def HintedOK (usizeMax size align : Nat) (e : Range) (regions : Option RangeSet)
    (t : Nat × Nat × Nat) : Prop :=
  ∃ rs, regions = some rs ∧ ∃ reg ∈ rs.ranges,
    Range.overlapsP e reg ∧
    t.1 = alignOvOf align (Range.inter e reg) ∧
    t.1 ≥ (Range.inter e reg).start ∧ t.1 ≤ (Range.inter e reg).stop ∧
    (Range.inter e reg).stop - t.1 ≥ size - 1 ∧
    t.2.1 = t.1 + (size - 1) ∧ t.2.2 = t.1

/-- The fallback pass produced `t` from candidate entry `e`. -/
def FallbackOK (usizeMax size align : Nat) (e : Range)
    (t : Nat × Nat × Nat) : Prop :=
  isCand usizeMax size align e ∧
  t = (e.start, allocEnd size align e, e.start + paddingOf align e)

/-- Any allocation tuple produced by the search loop comes from one of the
two passes applied to a live entry. -/
def GoodAlloc (usizeMax size align : Nat) (regions : Option RangeSet)
    (L : List Range) (t : Nat × Nat × Nat) : Prop :=
  ∃ e ∈ L, FallbackOK usizeMax size align e t ∨
    HintedOK usizeMax size align e regions t

theorem hintScan_break {usizeMax size align : Nat} {e : Range} :
    ∀ rs : List Range, ∀ {a b p : Nat},
    hintScan usizeMax size align e rs = .breakAll a b p →
    ∃ reg ∈ rs, Range.overlapsP e reg ∧
      a = alignOvOf align (Range.inter e reg) ∧
      a ≥ (Range.inter e reg).start ∧ a ≤ (Range.inter e reg).stop ∧
      (Range.inter e reg).stop - a ≥ size - 1 ∧
      b = a + (size - 1) ∧ p = a := by
  intro rs
  induction rs with
  | nil => intro a b p h; simp [hintScan] at h
  | cons reg rest ih =>
    intro a b p h
    simp only [hintScan] at h
    by_cases h1 : reg.start ≤ reg.stop
    · rw [if_pos h1] at h
      by_cases h2 : Range.overlapsP e reg
      · rw [if_pos h2] at h
        by_cases h3 : alignOvOf align (Range.inter e reg) ≥ (Range.inter e reg).start ∧
            alignOvOf align (Range.inter e reg) ≤ (Range.inter e reg).stop ∧
            (Range.inter e reg).stop - alignOvOf align (Range.inter e reg) ≥ size - 1
        · rw [if_pos h3] at h
          by_cases h4 : alignOvOf align (Range.inter e reg) > usizeMax ∨
              alignOvOf align (Range.inter e reg) + (size - 1) > usizeMax
          · rw [if_pos h4] at h
            simp at h
          · rw [if_neg h4] at h
            simp only [HintOut.breakAll.injEq] at h
            obtain ⟨rfl, rfl, rfl⟩ := h
            exact ⟨reg, by simp, h2, rfl, h3.1, h3.2.1, h3.2.2, rfl, rfl⟩
        · rw [if_neg h3] at h
          obtain ⟨reg', hm, hrest⟩ := ih h
          exact ⟨reg', List.mem_cons_of_mem _ hm, hrest⟩
      · rw [if_neg h2] at h
        obtain ⟨reg', hm, hrest⟩ := ih h
        exact ⟨reg', List.mem_cons_of_mem _ hm, hrest⟩
    · rw [if_neg h1] at h
      simp at h

theorem allocGo_good {usizeMax size align : Nat} {regions : Option RangeSet}
    {L : List Range} :
    ∀ (rest : List Range) (best : Option (Nat × Nat × Nat)),
    (∀ x ∈ rest, x ∈ L) →
    (∀ t, best = some t → GoodAlloc usizeMax size align regions L t) →
    ∀ {t}, allocGo usizeMax size align regions rest best = .finished (some t) →
    GoodAlloc usizeMax size align regions L t := by
  intro rest
  induction rest with
  | nil =>
    intro best _ hbest t h
    simp only [allocGo, ScanOut.finished.injEq] at h
    exact hbest t h
  | cons e rest ih =>
    intro best hsub hbest t h
    have hsub' : ∀ x ∈ rest, x ∈ L := fun x hx => hsub x (by simp [hx])
    have heL : e ∈ L := hsub e (by simp)
    simp only [allocGo] at h
    by_cases hb1 : e.start + (size - 1) > U64MAX
    · rw [if_pos hb1] at h
      simp at h
    · rw [if_neg hb1] at h
      by_cases hb2 : allocEnd size align e > U64MAX
      · rw [if_pos hb2] at h
        simp at h
      · rw [if_neg hb2] at h
        by_cases hb3 : e.start > usizeMax ∨ allocEnd size align e > usizeMax
        · rw [if_pos hb3] at h
          exact ih best hsub' hbest h
        · rw [if_neg hb3] at h
          by_cases hb4 : allocEnd size align e > e.stop
          · rw [if_pos hb4] at h
            exact ih best hsub' hbest h
          · rw [if_neg hb4] at h
            rcases hh : (match regions with
              | none => HintOut.noMatch
              | some rs => hintScan usizeMax size align e rs.ranges) with
              _ | _ | ⟨a, b, p⟩ | _ <;> rw [hh] at h
            · simp at h
            · exact ih best hsub' hbest h
            · simp only [ScanOut.finished.injEq, Option.some.injEq] at h
              subst h
              rcases hreg : regions with _ | rs
              · rw [hreg] at hh
                simp at hh
              · rw [hreg] at hh
                obtain ⟨reg, hm, hrest⟩ := hintScan_break _ hh
                exact ⟨e, heL, Or.inr ⟨rs, rfl, reg, hm, hrest⟩⟩
            · refine ih _ hsub' ?_ h
              intro t' ht'
              push_neg at hb3
              have hcand : isCand usizeMax size align e :=
                ⟨by omega, by omega, hb3.1, hb3.2, by omega⟩
              rcases best with _ | ⟨ps, pe, pp⟩
              · simp only [Option.some.injEq] at ht'
                subst ht'
                exact ⟨e, heL, Or.inl ⟨hcand, rfl⟩⟩
              · have ht2 : (if pe - ps > allocEnd size align e - e.start then
                    some (e.start, allocEnd size align e, e.start + paddingOf align e)
                    else some (ps, pe, pp)) = some t' := ht'
                by_cases hcmp : pe - ps > allocEnd size align e - e.start
                · rw [if_pos hcmp] at ht2
                  simp only [Option.some.injEq] at ht2
                  subst ht2
                  exact ⟨e, heL, Or.inl ⟨hcand, rfl⟩⟩
                · rw [if_neg hcmp] at ht2
                  simp only [Option.some.injEq] at ht2
                  subst ht2
                  exact hbest _ rfl

/-- Claim C2: a successful `allocate(size, align, regions)` returning `A`
yields an aligned address whose block `[A, A + size - 1]` was covered by a
live entry before the call and is covered by none after it. -/
theorem allocate_correct {usizeMax : Nat} {s : RangeSet} {size align : Nat}
    {regions : Option RangeSet} {A : Nat} {s' : RangeSet}
    (hwf : wfL s.ranges) (halign : align ≤ U64MAX)
    (h : s.allocate usizeMax size align regions = .ok A s') :
    A % align = 0 ∧
    (∀ a, A ≤ a → a ≤ A + (size - 1) → s.coversS a) ∧
    (∀ a, A ≤ a → a ≤ A + (size - 1) → ¬ s'.coversS a) := by
  obtain ⟨h0, h1, st, en, hgo, hrem⟩ := allocate_ok_inv h
  obtain ⟨k, hk, hal⟩ := count_ones_pow2 halign h1
  obtain ⟨hw', hi', hcov'⟩ := remove_ok hwf hrem
  have hgood := allocGo_good s.ranges none (fun x hx => hx) (by simp) hgo
  obtain ⟨e, heL, hca⟩ := hgood
  obtain ⟨hew1, hew2⟩ := hwf e heL
  subst hal
  rcases hca with ⟨hcand, ht⟩ | ⟨rs, hrs, reg, hm, hov, ha1, ha2, ha3, ha4, hb, hp⟩
  · -- fallback pass
    simp only [Prod.mk.injEq] at ht
    obtain ⟨hst, hen, hptr⟩ := ht
    subst hst
    subst hen
    subst hptr
    have hfit : allocEnd size (2 ^ k) e ≤ e.stop := hcand.2.2.2.2
    have hend : allocEnd size (2 ^ k) e =
        e.start + (size - 1) + paddingOf (2 ^ k) e := rfl
    refine ⟨?_, ?_, ?_⟩
    · unfold paddingOf
      exact padding_aligns e.start k
    · intro a haA haE
      refine ⟨e, heL, by omega, ?_⟩
      omega
    · intro a haA haE
      rw [show s'.coversS a ↔ _ from hcov' a]
      rintro ⟨hc, hnm⟩
      exact hnm ⟨show e.start ≤ a by omega,
        show a ≤ allocEnd size (2 ^ k) e by omega⟩
  · -- hinted pass
    have hp1 : st = alignOvOf (2 ^ k) (Range.inter e reg) := ha1
    have ha2' : st ≥ (Range.inter e reg).start := ha2
    have ha3' : st ≤ (Range.inter e reg).stop := ha3
    have ha4' : (Range.inter e reg).stop - st ≥ size - 1 := ha4
    have hen : en = st + (size - 1) := hb
    have hA : A = st := hp
    subst hA
    subst hen
    have hint1 : e.start ≤ (Range.inter e reg).start := by
      unfold Range.inter
      simp
    have hint2 : (Range.inter e reg).stop ≤ e.stop := by
      unfold Range.inter
      simp
    refine ⟨?_, ?_, ?_⟩
    · rw [hp1]
      unfold alignOvOf
      have hkpos : (1 : Nat) ≤ 2 ^ k := Nat.one_le_two_pow
      have hmask : U64MAX - (2 ^ k - 1) = 2 ^ 64 - 2 ^ k := by
        unfold U64MAX
        have : (2 : Nat) ^ k ≤ 2 ^ 64 := Nat.pow_le_pow_right (by norm_num) (by omega)
        omega
      rw [hmask]
      obtain ⟨c, hc⟩ := land_high_dvd
        (((Range.inter e reg).start + (2 ^ k - 1)) % U64MOD) k (by omega)
      rw [hc, Nat.mul_mod_right]
    · intro a haA haE
      refine ⟨e, heL, by omega, by omega⟩
    · intro a haA haE
      rw [show s'.coversS a ↔ _ from hcov' a]
      rintro ⟨hc, hnm⟩
      exact hnm ⟨show A ≤ a by omega, show a ≤ A + (size - 1) by omega⟩

/-- Witness for C2. -/
theorem allocate_correct_witness :
    (wfL (RangeSet.mk [⟨0, 100⟩]).ranges ∧ (16 : Nat) ≤ U64MAX ∧
      RangeSet.allocate U64MAX ⟨[⟨0, 100⟩]⟩ 16 16 none = .ok 0 ⟨[⟨16, 100⟩]⟩) ∧
    (0 : Nat) % 16 = 0 :=
  ⟨⟨by decide, by decide, by decide⟩,
    (@allocate_correct U64MAX ⟨[⟨0, 100⟩]⟩ 16 16 none 0 ⟨[⟨16, 100⟩]⟩
      (by decide) (by decide) (by decide)).1⟩

/-- Counterexample to C4 as stated: allocating 1 byte with alignment 2
from `{[1,10]}` returns `A = 2` but removes `[1,2]`, so address 1 — outside
`[A, A+size-1] = [2,2]` — was covered before the call and is not covered
after it. -/
theorem allocate_frame_cex :
    RangeSet.allocate U64MAX ⟨[⟨1, 10⟩]⟩ 1 2 none = .ok 2 ⟨[⟨3, 10⟩]⟩ ∧
    (RangeSet.mk [⟨1, 10⟩]).coversS 1 ∧
    ¬ (RangeSet.mk [⟨3, 10⟩]).coversS 1 ∧
    ¬ (2 ≤ 1 ∧ 1 ≤ 2 + (1 - 1)) := by
  refine ⟨by decide, by decide, by decide, by decide⟩

/-- Amended C4: a successful `allocate` returning `A` changes the set
exactly by removing the block `[B, A + size - 1]`, where `B ≤ A` is the
chosen block start (the entry's start in the fallback pass, so `A - B` is
the alignment padding, less than `align`; `B = A` in the hinted pass):
inside that block nothing is covered afterwards, outside it coverage is
unchanged. -/
theorem allocate_removes_padded_block {usizeMax : Nat} {s : RangeSet}
    {size align : Nat} {regions : Option RangeSet} {A : Nat} {s' : RangeSet}
    (hwf : wfL s.ranges) (halign : align ≤ U64MAX)
    (h : s.allocate usizeMax size align regions = .ok A s') :
    ∃ B, B ≤ A ∧ A < B + align ∧
      (∀ a, B ≤ a → a ≤ A + (size - 1) → ¬ s'.coversS a) ∧
      (∀ a, ¬ (B ≤ a ∧ a ≤ A + (size - 1)) → (s'.coversS a ↔ s.coversS a)) := by
  obtain ⟨h0, h1, st, en, hgo, hrem⟩ := allocate_ok_inv h
  obtain ⟨k, hk, hal⟩ := count_ones_pow2 halign h1
  obtain ⟨hw', hi', hcov'⟩ := remove_ok hwf hrem
  have hgood := allocGo_good s.ranges none (fun x hx => hx) (by simp) hgo
  obtain ⟨e, heL, hca⟩ := hgood
  subst hal
  have hkpos : (1 : Nat) ≤ 2 ^ k := Nat.one_le_two_pow
  have key : st ≤ A ∧ A < st + 2 ^ k ∧ en = A + (size - 1) := by
    rcases hca with ⟨hcand, ht⟩ | ⟨rs, hrs, reg, hm, hov, ha1, ha2, ha3, ha4, hb, hp⟩
    · simp only [Prod.mk.injEq] at ht
      obtain ⟨hst, hen, hptr⟩ := ht
      have hpad : paddingOf (2 ^ k) e ≤ 2 ^ k - 1 := by
        unfold paddingOf
        exact Nat.and_le_right
      have hend : allocEnd size (2 ^ k) e =
          e.start + (size - 1) + paddingOf (2 ^ k) e := rfl
      refine ⟨by omega, by omega, by omega⟩
    · have hb' : en = st + (size - 1) := hb
      have hp' : A = st := hp
      refine ⟨by omega, by omega, by omega⟩
  obtain ⟨hBA, hAB, hen⟩ := key
  subst hen
  refine ⟨st, hBA, hAB, ?_, ?_⟩
  · intro a h1' h2'
    rw [show s'.coversS a ↔ _ from hcov' a]
    rintro ⟨hc, hnm⟩
    exact hnm ⟨h1', h2'⟩
  · intro a hout
    rw [show s'.coversS a ↔ _ from hcov' a]
    constructor
    · rintro ⟨hc, _⟩
      exact hc
    · intro hc
      refine ⟨hc, ?_⟩
      intro hmem
      have hm1 : st ≤ a := hmem.1
      have hm2 : a ≤ A + (size - 1) := hmem.2
      exact hout ⟨hm1, hm2⟩

/-- Witness for the amended C4. -/
theorem allocate_removes_padded_block_witness :
    (wfL (RangeSet.mk [⟨1, 10⟩]).ranges ∧ (2 : Nat) ≤ U64MAX ∧
      RangeSet.allocate U64MAX ⟨[⟨1, 10⟩]⟩ 1 2 none = .ok 2 ⟨[⟨3, 10⟩]⟩) ∧
    (∃ B, B ≤ 2 ∧ 2 < B + 2 ∧
      (∀ a, B ≤ a → a ≤ 2 + (1 - 1) → ¬ (RangeSet.mk [⟨3, 10⟩]).coversS a) ∧
      (∀ a, ¬ (B ≤ a ∧ a ≤ 2 + (1 - 1)) →
        ((RangeSet.mk [⟨3, 10⟩]).coversS a ↔ (RangeSet.mk [⟨1, 10⟩]).coversS a))) :=
  ⟨⟨by decide, by decide, by decide⟩,
    @allocate_removes_padded_block U64MAX ⟨[⟨1, 10⟩]⟩ 1 2 none 2 ⟨[⟨3, 10⟩]⟩
      (by decide) (by decide) (by decide)⟩

/-! ### The fallback pass is first-minimal in the allocation span -/

/-- The span `end - start` of the proposed fallback allocation in `e`:
alignment padding plus `size - 1`. -/
def allocSpan (size align : Nat) (e : Range) : Nat :=
  allocEnd size align e - e.start

/-- Invariant of the `allocation` accumulator over the processed prefix of
the entry list (for an unhinted call): it is the first candidate with the
minimal allocation span seen so far. -/
def BestInv (usizeMax size align : Nat) (processed : List Range) :
    Option (Nat × Nat × Nat) → Prop
  | none => ∀ f ∈ processed, ¬ isCand usizeMax size align f
  | some t => ∃ pre e post, processed = pre ++ e :: post ∧
      isCand usizeMax size align e ∧
      t = (e.start, allocEnd size align e, e.start + paddingOf align e) ∧
      (∀ f ∈ pre, isCand usizeMax size align f →
        allocSpan size align e < allocSpan size align f) ∧
      (∀ f ∈ post, isCand usizeMax size align f →
        allocSpan size align e ≤ allocSpan size align f)

theorem BestInv_snoc_noncand {usizeMax size align : Nat} {processed : List Range}
    {best : Option (Nat × Nat × Nat)}
    (hinv : BestInv usizeMax size align processed best)
    {e : Range} (hnc : ¬ isCand usizeMax size align e) :
    BestInv usizeMax size align (processed ++ [e]) best := by
  cases best with
  | none =>
    intro f hf
    rcases List.mem_append.1 hf with hf | hf
    · exact hinv f hf
    · simp only [List.mem_singleton] at hf
      subst hf
      exact hnc
  | some t =>
    obtain ⟨pre, e₀, post, hsplit, hc, ht, hp1, hp2⟩ := hinv
    refine ⟨pre, e₀, post ++ [e], by simp [hsplit], hc, ht, hp1, ?_⟩
    intro f hf hcf
    rcases List.mem_append.1 hf with hf | hf
    · exact hp2 f hf hcf
    · simp only [List.mem_singleton] at hf
      subst hf
      exact absurd hcf hnc

theorem allocGo_none_best {usizeMax size align : Nat} :
    ∀ (rest : List Range) (best : Option (Nat × Nat × Nat)) (processed : List Range),
    BestInv usizeMax size align processed best →
    ∀ {t}, allocGo usizeMax size align none rest best = .finished (some t) →
    ∃ pre e post, processed ++ rest = pre ++ e :: post ∧
      isCand usizeMax size align e ∧
      t = (e.start, allocEnd size align e, e.start + paddingOf align e) ∧
      (∀ f ∈ pre, isCand usizeMax size align f →
        allocSpan size align e < allocSpan size align f) ∧
      (∀ f ∈ post, isCand usizeMax size align f →
        allocSpan size align e ≤ allocSpan size align f) := by
  intro rest
  induction rest with
  | nil =>
    intro best processed hinv t h
    simp only [allocGo, ScanOut.finished.injEq] at h
    subst h
    obtain ⟨pre, e, post, hsplit, hcand, ht, hpre, hpost⟩ := hinv
    exact ⟨pre, e, post, by simp [hsplit], hcand, ht, hpre, hpost⟩
  | cons e rest ih =>
    intro best processed hinv t h
    simp only [allocGo] at h
    by_cases hb1 : e.start + (size - 1) > U64MAX
    · rw [if_pos hb1] at h
      simp at h
    · rw [if_neg hb1] at h
      by_cases hb2 : allocEnd size align e > U64MAX
      · rw [if_pos hb2] at h
        simp at h
      · rw [if_neg hb2] at h
        by_cases hb3 : e.start > usizeMax ∨ allocEnd size align e > usizeMax
        · rw [if_pos hb3] at h
          have hnc : ¬ isCand usizeMax size align e := by
            intro hc
            rcases hb3 with hb | hb
            · exact absurd hc.2.2.1 (by omega)
            · exact absurd hc.2.2.2.1 (by omega)
          have hres := ih best (processed ++ [e]) (BestInv_snoc_noncand hinv hnc) h
          rwa [List.append_assoc, List.singleton_append] at hres
        · rw [if_neg hb3] at h
          by_cases hb4 : allocEnd size align e > e.stop
          · rw [if_pos hb4] at h
            have hnc : ¬ isCand usizeMax size align e := by
              intro hc
              exact absurd hc.2.2.2.2 (by omega)
            have hres := ih best (processed ++ [e]) (BestInv_snoc_noncand hinv hnc) h
            rwa [List.append_assoc, List.singleton_append] at hres
          · rw [if_neg hb4] at h
            push_neg at hb3
            have hcand : isCand usizeMax size align e :=
              ⟨by omega, by omega, hb3.1, hb3.2, by omega⟩
            rcases best with _ | ⟨ps, pe, pp⟩
            · have hinv' : BestInv usizeMax size align (processed ++ [e])
                  (some (e.start, allocEnd size align e, e.start + paddingOf align e)) := by
                refine ⟨processed, e, [], by simp, hcand, rfl, ?_, by simp⟩
                intro f hf hcf
                exact absurd hcf (hinv f hf)
              have hres := ih _ (processed ++ [e]) hinv' h
              rwa [List.append_assoc, List.singleton_append] at hres
            · obtain ⟨pre₀, e₀, post₀, hsplit, hcand₀, ht₀, hpre₀, hpost₀⟩ := hinv
              simp only [Prod.mk.injEq] at ht₀
              obtain ⟨hps, hpe, hpp⟩ := ht₀
              have hspan : pe - ps = allocSpan size align e₀ := by
                rw [hps, hpe]
                rfl
              have h' : allocGo usizeMax size align none rest
                  (if pe - ps > allocEnd size align e - e.start then
                    some (e.start, allocEnd size align e, e.start + paddingOf align e)
                  else some (ps, pe, pp)) = .finished (some t) := h
              have hespan : allocEnd size align e - e.start = allocSpan size align e := rfl
              by_cases hcmp : pe - ps > allocEnd size align e - e.start
              · rw [if_pos hcmp] at h'
                have hlt : allocSpan size align e < allocSpan size align e₀ := by
                  rw [hspan, hespan] at hcmp
                  omega
                have hinv' : BestInv usizeMax size align (processed ++ [e])
                    (some (e.start, allocEnd size align e, e.start + paddingOf align e)) := by
                  refine ⟨processed, e, [], by simp, hcand, rfl, ?_, by simp⟩
                  intro f hf hcf
                  rw [hsplit] at hf
                  rcases List.mem_append.1 hf with hf | hf
                  · exact lt_trans hlt (hpre₀ f hf hcf)
                  · rcases List.mem_cons.1 hf with rfl | hf
                    · exact hlt
                    · exact lt_of_lt_of_le hlt (hpost₀ f hf hcf)
                have hres := ih _ (processed ++ [e]) hinv' h'
                rwa [List.append_assoc, List.singleton_append] at hres
              · rw [if_neg hcmp] at h'
                have hinv' : BestInv usizeMax size align (processed ++ [e])
                    (some (ps, pe, pp)) := by
                  refine ⟨pre₀, e₀, post₀ ++ [e], by simp [hsplit], hcand₀,
                    by rw [hps, hpe, hpp], hpre₀, ?_⟩
                  intro f hf hcf
                  rcases List.mem_append.1 hf with hf | hf
                  · exact hpost₀ f hf hcf
                  · simp only [List.mem_singleton] at hf
                    subst hf
                    rw [hspan, hespan] at hcmp
                    omega
                have hres := ih _ (processed ++ [e]) hinv' h'
                rwa [List.append_assoc, List.singleton_append] at hres

/-- Counterexample to C3 as stated: with entries `{[0,1000],[3,4]}`,
`allocate(size=1, align=2)` succeeds at address 0 from the entry `[0,1000]`
(span 1000), although the entry `[3,4]` (span 1) is also a candidate in
which the size-1 allocation fits at its start rounded up to 2 — so the
chosen entry is not one of smallest total span `end - start`. -/
theorem allocate_best_fit_cex :
    RangeSet.allocate U64MAX ⟨[⟨0, 1000⟩, ⟨3, 4⟩]⟩ 1 2 none =
      .ok 0 ⟨[⟨1, 1000⟩, ⟨3, 4⟩]⟩ ∧
    isCand U64MAX 1 2 ⟨3, 4⟩ ∧ isCand U64MAX 1 2 ⟨0, 1000⟩ ∧
    Range.stop ⟨3, 4⟩ - Range.start ⟨3, 4⟩ <
      Range.stop ⟨0, 1000⟩ - Range.start ⟨0, 1000⟩ ∧
    (0 : Nat) = Range.start ⟨0, 1000⟩ + paddingOf 2 ⟨0, 1000⟩ ∧
    (0 : Nat) ≠ Range.start ⟨3, 4⟩ + paddingOf 2 ⟨3, 4⟩ := by
  refine ⟨by decide, by decide, by decide, by decide, by decide, by decide⟩

/-- Amended C3: for an unhinted successful `allocate`, the chosen entry is
the first candidate minimizing the proposed allocation's span
`end - start` (that is, alignment padding plus `size - 1`) — not the
entry's own total span: every earlier candidate has a strictly larger
allocation span, every later candidate at least as large a one, and the
returned address is the chosen entry's start plus its padding. -/
theorem allocate_none_best_fit {usizeMax size align A : Nat} {s s' : RangeSet}
    (h : s.allocate usizeMax size align none = .ok A s') :
    ∃ pre e post, s.ranges = pre ++ e :: post ∧
      isCand usizeMax size align e ∧
      A = e.start + paddingOf align e ∧
      (∀ f ∈ pre, isCand usizeMax size align f →
        allocSpan size align e < allocSpan size align f) ∧
      (∀ f ∈ post, isCand usizeMax size align f →
        allocSpan size align e ≤ allocSpan size align f) := by
  obtain ⟨h0, h1, st, en, hgo, hrem⟩ := allocate_ok_inv h
  have hb := allocGo_none_best s.ranges none []
    (by intro f hf; simp at hf) hgo
  obtain ⟨pre, e, post, hsplit, hcand, ht, hpre, hpost⟩ := hb
  rw [List.nil_append] at hsplit
  simp only [Prod.mk.injEq] at ht
  exact ⟨pre, e, post, hsplit, hcand, ht.2.2, hpre, hpost⟩

/-- Witness for the amended C3. -/
theorem allocate_none_best_fit_witness :
    RangeSet.allocate U64MAX ⟨[⟨0, 1000⟩, ⟨3, 4⟩]⟩ 1 2 none =
      .ok 0 ⟨[⟨1, 1000⟩, ⟨3, 4⟩]⟩ ∧
    (∃ pre e post,
      (RangeSet.mk [⟨0, 1000⟩, ⟨3, 4⟩]).ranges = pre ++ e :: post ∧
      isCand U64MAX 1 2 e ∧
      0 = e.start + paddingOf 2 e ∧
      (∀ f ∈ pre, isCand U64MAX 1 2 f →
        allocSpan 1 2 e < allocSpan 1 2 f) ∧
      (∀ f ∈ post, isCand U64MAX 1 2 f →
        allocSpan 1 2 e ≤ allocSpan 1 2 f)) :=
  ⟨by decide,
    @allocate_none_best_fit U64MAX 1 2 0 ⟨[⟨0, 1000⟩, ⟨3, 4⟩]⟩
      ⟨[⟨1, 1000⟩, ⟨3, 4⟩]⟩ (by decide)⟩
